import Mathlib

/-!
Verification of the multi-venue funding-rate engine
(`src/clients/binance.py`, `src/clients/hyperliquid.py`,
`src/clients/derive.py`, `src/main.py`) against its specification.

Timestamps are modelled as milliseconds since the epoch (`Nat` for row
timestamps, `Int` where the Python code accepts arbitrary integers).
Funding rates are modelled as rationals.  A venue-native numeric field is
modelled as `Option Rat`, where `none` marks a value on which Python
float conversion fails, so that a malformed row is a row holding `none`.
HTTP transport is modelled as an oracle function handed to the client.
-/

namespace RevenueModel

/-- One raw row of the Binance `/fapi/v1/fundingRate` response
(`src/clients/binance.py`).  `fundingRate` is `none` when the
venue-native string does not convert to a float. -/
structure BinanceRow where
  symbol : String
  fundingTime : Nat
  fundingRate : Option Rat
  markPrice : Option Rat
  deriving DecidableEq

/-- A row of the dataframe returned by
`BinanceFuturesFundingClient.get_funding_rate_history`. -/
structure BinRecord where
  symbol : String
  funding_time : Nat
  funding_rate : Rat
  funding_rate_bps : Rat
  mark_price : Option Rat
  deriving DecidableEq

/-- Canonical Binance column set (`src/clients/binance.py`, lines 81-115). -/
def binColumns : List String :=
  ["symbol", "funding_time", "funding_rate", "funding_rate_bps", "mark_price"]

/-- Outcome of `get_funding_rate_history`: a raised `ValueError`, a
non-terminating pagination loop (`hung`), or a returned dataframe. -/
inductive BinResult where
  | valueError (msg : String)
  | hung
  | ok (columns : List String) (records : List BinRecord)
  deriving DecidableEq

def limitMsg : String := "limit must be between 1 and 1000"

def rangeMsg : String := "start_time_ms must be <= end_time_ms"

def floatMsg : String := "could not convert string to float"

def negMsg : String := "start_time_ms must be non-negative"

def dvRangeMsg : String := "start_timestamp_ms must be <= end_timestamp_ms"

def dvNegMsg : String := "start_timestamp_ms must be non-negative"

/-- `max(int(item["fundingTime"]) for item in batch)` (line 75 of
`src/clients/binance.py`); Python `max` over a non-empty batch. -/
def batchMaxTs (batch : List BinanceRow) : Nat :=
  (batch.map (·.fundingTime)).foldl max 0

/-- The pagination loop of `get_funding_rate_history`
(`src/clients/binance.py`, lines 59-79), with an explicit fuel bound:
`none` means the loop has not finished within `fuel` iterations.  The
server oracle maps the `startTime` request parameter (absent = `none`)
to the returned batch; the batches are returned in request order, and
`rows` of the Python code is their concatenation. -/
def binPaginate (server : Option Nat → List BinanceRow) (limit : Int)
    (endMs : Option Nat) : Nat → Option Nat → Option (List (List BinanceRow))
  | 0, _ => none
  | fuel + 1, currentStart =>
    let batch := server currentStart
    if batch.isEmpty then some [batch]
    else if (batch.length : Int) < limit then some [batch]
    else
      let nextStart := batchMaxTs batch + 1
      match endMs with
      | some e =>
        if e < nextStart then some [batch]
        else (binPaginate server limit endMs fuel (some nextStart)).map (batch :: ·)
      | none => (binPaginate server limit endMs fuel (some nextStart)).map (batch :: ·)

/-- `start_time_ms is not None and end_time_ms is not None and
start_time_ms > end_time_ms` (lines 38-42 of `src/clients/binance.py`). -/
def binRangeInvalid (startMs endMs : Option Nat) : Bool :=
  match startMs, endMs with
  | some s, some e => decide (e < s)
  | _, _ => false

/-- Conversion of one raw row into the canonical record, as performed by
lines 92-102 of `src/clients/binance.py`; `none` when `astype(float)`
fails on the `fundingRate` field. -/
def binParseRow (r : BinanceRow) : Option BinRecord :=
  r.fundingRate.map fun q =>
    ⟨r.symbol, r.fundingTime, q, q * 10000, r.markPrice⟩

/-- Row order on Binance records used by `sort_values("funding_time")`. -/
def binRecLE (a b : BinRecord) : Prop := a.funding_time ≤ b.funding_time

instance : DecidableRel binRecLE := fun a b =>
  inferInstanceAs (Decidable (a.funding_time ≤ b.funding_time))

/-- `BinanceFuturesFundingClient.get_funding_rate_history`
(`src/clients/binance.py`, lines 28-115): limit validation, range
validation, pagination (or a single unbounded request when both bounds
are absent), empty-result short cut, per-row conversion and the final
stable sort by funding time. -/
def binanceHistory (server : Option Nat → List BinanceRow)
    (startMs endMs : Option Nat) (limit : Int) (fuel : Nat) : BinResult :=
  if limit < 1 ∨ 1000 < limit then .valueError limitMsg
  else if binRangeInvalid startMs endMs then .valueError rangeMsg
  else
    let batches? : Option (List (List BinanceRow)) :=
      match startMs, endMs with
      | none, none => some [server none]
      | _, _ => binPaginate server limit endMs fuel startMs
    match batches? with
    | none => .hung
    | some batches =>
      let rows := batches.flatten
      if rows.isEmpty then .ok binColumns []
      else
        match rows.mapM binParseRow with
        | none => .valueError floatMsg
        | some recs => .ok binColumns (List.insertionSort binRecLE recs)

/-- A Binance server honouring the documented endpoint contract: rows of
the (fixed) symbol history whose funding time lies inside the requested
window, earliest first, capped at `limit` rows. -/
def honestBinServer (data : List BinanceRow) (limit : Int) (endMs : Option Nat) :
    Option Nat → List BinanceRow := fun startMs =>
  (data.filter fun r =>
    (match startMs with | some s => decide (s ≤ r.fundingTime) | none => true) &&
    (match endMs with | some e => decide (r.fundingTime ≤ e) | none => true)).take limit.toNat

/-- De-duplication by timestamp keeping the first occurrence. -/
def dedupByTs : List BinanceRow → List BinanceRow
  | [] => []
  | r :: rs => r :: dedupByTs (rs.filter fun x => x.fundingTime ≠ r.fundingTime)
termination_by l => l.length
decreasing_by
  simp only [List.length_cons]
  exact Nat.lt_succ_of_le (List.length_filter_le _ _)

/-- Outcome of the Hyperliquid and Derive history fetches: a raised
`ValueError` or a returned dataframe over the given record type. -/
inductive FetchResult (α : Type) where
  | valueError (msg : String)
  | ok (columns : List String) (records : List α)
  deriving DecidableEq

/-- One venue entry of a Hyperliquid `predictedFundings` asset entry
(`src/clients/hyperliquid.py`, lines 63-96).  `shapeOk` records the
`isinstance`/length checks of lines 64-68; the outer `Option` of each
field records presence of the key (lines 74-77), the inner `Option`
whether `float`/`int` conversion succeeds (lines 80-85). -/
structure HLVenueEntry where
  shapeOk : Bool
  venue : String
  fundingRate : Option (Option Rat)
  nextFundingTime : Option (Option Nat)
  deriving DecidableEq

/-- One asset entry of the `predictedFundings` response
(`src/clients/hyperliquid.py`, lines 56-61): `shapeOk` records the
`isinstance(entry, list) and len(entry) == 2` check. -/
structure HLEntry where
  shapeOk : Bool
  asset : String
  venues : List HLVenueEntry
  deriving DecidableEq

/-- A row of the dataframe built by `get_predicted_funding`. -/
structure HLPredRow where
  asset : String
  venue : String
  funding_rate : Rat
  funding_rate_bps : Rat
  next_funding_time : Nat
  deriving DecidableEq

/-- The per-venue-entry body of the inner loop of `get_predicted_funding`
(`src/clients/hyperliquid.py`, lines 63-96): `none` exactly when the code
hits a `continue` (bad shape, missing field or failed conversion). -/
def hlVenueRow (asset : String) (ve : HLVenueEntry) : Option HLPredRow :=
  if ve.shapeOk then
    match ve.fundingRate, ve.nextFundingTime with
    | some rp, some tp =>
      match rp, tp with
      | some r, some t => some ⟨asset, ve.venue, r, r * 10000, t⟩
      | _, _ => none
    | _, _ => none
  else none

/-- The row list built by the two nested loops of `get_predicted_funding`
(`src/clients/hyperliquid.py`, lines 54-96), before the final sort. -/
def hlPredictedRows (data : List HLEntry) : List HLPredRow :=
  data.flatMap fun entry =>
    if entry.shapeOk then entry.venues.filterMap (hlVenueRow entry.asset)
    else []

/-- Lexicographic order on `(asset, venue)` used by
`sort_values(["asset", "venue"])`. -/
def hlPredLE (a b : HLPredRow) : Prop :=
  a.asset < b.asset ∨ (a.asset = b.asset ∧ a.venue ≤ b.venue)

instance : DecidableRel hlPredLE := fun a b =>
  inferInstanceAs (Decidable (a.asset < b.asset ∨ (a.asset = b.asset ∧ a.venue ≤ b.venue)))

def hlPredColumns : List String :=
  ["asset", "venue", "funding_rate", "funding_rate_bps", "next_funding_time"]

/-- `HyperliquidInfoClient.get_predicted_funding`
(`src/clients/hyperliquid.py`, lines 37-111). -/
def hlPredicted (data : List HLEntry) : FetchResult HLPredRow :=
  match hlPredictedRows data with
  | [] => .ok hlPredColumns []
  | rows => .ok hlPredColumns (List.insertionSort hlPredLE rows)

/-- One raw row of the Hyperliquid `fundingHistory` response.  A `none`
field marks a value on which `astype(float)` fails. -/
structure HLHistRow where
  time : Nat
  fundingRate : Option Rat
  premium : Option Rat
  deriving DecidableEq

/-- A row of the dataframe returned by
`HyperliquidInfoClient.get_funding_history`. -/
structure HLHistRecord where
  coin : String
  time : Nat
  funding_rate : Rat
  funding_rate_bps : Rat
  premium : Rat
  premium_bps : Rat
  deriving DecidableEq

def hlHistColumns : List String :=
  ["coin", "time", "funding_rate", "funding_rate_bps", "premium", "premium_bps"]

/-- Conversion of one raw history row (lines 170-175 of
`src/clients/hyperliquid.py`); `none` when `astype(float)` fails. -/
def hlParseRow (coin : String) (r : HLHistRow) : Option HLHistRecord :=
  match r.fundingRate, r.premium with
  | some fr, some p => some ⟨coin, r.time, fr, fr * 10000, p, p * 10000⟩
  | _, _ => none

def hlRecLE (a b : HLHistRecord) : Prop := a.time ≤ b.time

instance : DecidableRel hlRecLE := fun a b =>
  inferInstanceAs (Decidable (a.time ≤ b.time))

/-- `HyperliquidInfoClient.get_funding_history`
(`src/clients/hyperliquid.py`, lines 113-189).  The server oracle maps
the request window to the response payload; `none` models a payload that
is not a JSON list. -/
def hlHistory (server : Int → Option Int → Option (List HLHistRow))
    (coin : String) (startMs : Int) (endMs : Option Int) :
    FetchResult HLHistRecord :=
  if startMs < 0 then .valueError negMsg
  else if (match endMs with | some e => decide (e < startMs) | none => false) then
    .valueError rangeMsg
  else
    match server startMs endMs with
    | none => .ok hlHistColumns []
    | some [] => .ok hlHistColumns []
    | some rows =>
      match rows.mapM (hlParseRow coin) with
      | none => .valueError floatMsg
      | some recs => .ok hlHistColumns (List.insertionSort hlRecLE recs)

/-- One raw row of the Derive `funding_rate_history` result list. -/
structure DvRow where
  timestamp : Nat
  funding_rate : Option Rat
  deriving DecidableEq

/-- A row of the dataframe returned by
`DeriveFundingClient.get_funding_rate_history`. -/
structure DvRecord where
  instrument_name : String
  time : Nat
  funding_rate : Rat
  funding_rate_bps : Rat
  period_sec : Option Int
  deriving DecidableEq

def dvColumns : List String :=
  ["instrument_name", "time", "funding_rate", "funding_rate_bps", "period_sec"]

/-- Conversion of one raw Derive row (lines 108-112 of
`src/clients/derive.py`); `none` when `astype(float)` fails. -/
def dvParseRow (instrument : String) (periodVal : Option Int) (r : DvRow) :
    Option DvRecord :=
  r.funding_rate.map fun q => ⟨instrument, r.timestamp, q, q * 10000, periodVal⟩

def dvRecLE (a b : DvRecord) : Prop := a.time ≤ b.time

instance : DecidableRel dvRecLE := fun a b =>
  inferInstanceAs (Decidable (a.time ≤ b.time))

/-- `DeriveFundingClient.get_funding_rate_history`
(`src/clients/derive.py`, lines 38-125).  `nowMs` models
`int(time.time() * 1000)`, the default end bound; the server oracle maps
the request window to the extracted `funding_rate_history` list (`none`
models a response without a well-formed `result.funding_rate_history`,
which the `if not history` branch treats like an empty list). -/
def deriveHistory (server : Int → Int → Option (List DvRow))
    (instrument : String) (nowMs : Int) (startMs? endMs? : Option Int)
    (periodVal : Option Int) : FetchResult DvRecord :=
  let endMs := endMs?.getD nowMs
  let startMs := startMs?.getD 0
  if startMs < 0 then .valueError dvNegMsg
  else if endMs < startMs then .valueError dvRangeMsg
  else
    match server startMs endMs with
    | none => .ok dvColumns []
    | some [] => .ok dvColumns []
    | some rows =>
      match rows.mapM (dvParseRow instrument periodVal) with
      | none => .valueError floatMsg
      | some recs => .ok dvColumns (List.insertionSort dvRecLE recs)

/-- `BestPair` of the Spread and Ranking Engine. -/
structure BestPair where
  long_venue : String
  short_venue : String
  spread : Rat
  annualized_yield : Rat
  deriving DecidableEq

/-- Modelled from the spec: `settlements_per_day`, the fixed annualization
assumption of section 4.4 (3, reflecting 8-hourly settlement); the Spread
and Ranking Engine is not implemented under `src/`. -/
def settlementsPerDay : Rat := 3

/-- Ranking order of section 4.4: rate descending, ties broken by
venue-name lexical order. -/
def rankRel (a b : String × Rat) : Prop :=
  b.2 < a.2 ∨ (a.2 = b.2 ∧ a.1 ≤ b.1)

instance : DecidableRel rankRel := fun a b =>
  inferInstanceAs (Decidable (b.2 < a.2 ∨ (a.2 = b.2 ∧ a.1 ≤ b.1)))

/-- Modelled from the spec: `bestPair` of section 4.4 (the Spread and
Ranking Engine is not implemented under `src/`).  Venues are ranked by
rate descending with ties broken by venue-name lexical order; the long
leg is the highest rate, the short leg the lowest; `spread = rate_long -
rate_short`; `apy = spread * settlements_per_day * 365 * 100`; `none`
when fewer than two venues reported. -/
def bestPair (rates : List (String × Rat)) : Option BestPair :=
  if rates.length < 2 then none
  else
    let ranked := List.insertionSort rankRel rates
    match ranked.head?, ranked.getLast? with
    | some lg, some sh =>
      let spread := lg.2 - sh.2
      some ⟨lg.1, sh.1, spread, spread * settlementsPerDay * 365 * 100⟩
    | _, _ => none

/-! ### Series aligner (`prepare_merged_timeseries`, `src/main.py` lines 56-142)

An observation series is a list of `(timestamp, rate)` pairs; a resampled
series is a list of `(grid timestamp, optional cell)` pairs, a `none`
cell being a pandas `NaN`. -/

/-- Sort order on observations used by `sort_index()`. -/
def obsLE (a b : Nat × Rat) : Prop := a.1 ≤ b.1

instance : DecidableRel obsLE := fun a b =>
  inferInstanceAs (Decidable (a.1 ≤ b.1))

/-- `sort_index()`: stable sort of the series by timestamp. -/
def sortByTs (l : List (Nat × Rat)) : List (Nat × Rat) :=
  List.insertionSort obsLE l

/-- The left edge of the resampling bin holding `t` (pandas bins for a
fixed frequency are aligned to multiples of `freq`). -/
def binOf (freq t : Nat) : Nat := t / freq * freq

/-- The resampling grid of a sorted series: the left bin edges from the
bin of the first index entry to the bin of the last, at step `freq`. -/
def gridOf (freq : Nat) (s : List (Nat × Rat)) : List Nat :=
  match s.head?, s.getLast? with
  | some a, some b =>
    (List.range ((binOf freq b.1 - binOf freq a.1) / freq + 1)).map
      fun k => binOf freq a.1 + k * freq
  | _, _ => []

/-- The `.resample(freq).mean()` cell at grid time `t`: the arithmetic
mean of the observations falling in the bin labelled `t`, `none` (NaN)
when the bin is empty. -/
def binMean (freq t : Nat) (s : List (Nat × Rat)) : Option Rat :=
  let xs := s.filter fun o => binOf freq o.1 = t
  if xs.isEmpty then none
  else some ((xs.map Prod.snd).sum / xs.length)

/-- `.set_index("time").sort_index().resample(freq).mean()` on a
sub-grid venue series (`src/main.py`, lines 72-77 and 86-91). -/
def resampleMean (freq : Nat) (obs : List (Nat × Rat)) :
    List (Nat × Option Rat) :=
  let s := sortByTs obs
  (gridOf freq s).map fun t => (t, binMean freq t s)

/-- The value cells of `.resample(freq).ffill()`: walking the grid while
consuming the sorted observations, each cell carries the last observation
seen so far (pandas upsampling fill reindexes the original series onto
the grid with forward fill). -/
def ffillCells (obs : List (Nat × Rat)) (carry : Option Rat) :
    List Nat → List (Nat × Option Rat)
  | [] => []
  | t :: ts =>
    let pre := obs.takeWhile fun o => o.1 ≤ t
    let rest := obs.dropWhile fun o => o.1 ≤ t
    let c := match pre.getLast? with
      | some o => some o.2
      | none => carry
    (t, c) :: ffillCells rest c ts

/-- `.set_index("time").sort_index().resample(freq).ffill()` on the
super-grid Binance series (`src/main.py`, lines 100-108). -/
def resampleFfill (freq : Nat) (obs : List (Nat × Rat)) :
    List (Nat × Option Rat) :=
  let s := sortByTs obs
  ffillCells s none (gridOf freq s)

/-- The merged dataframe: the shared sorted time index and the columns,
each keyed by name and carrying one optional cell per index entry. -/
structure Frame where
  times : List Nat
  cols : List (String × List (Nat × Option Rat))
  deriving DecidableEq

/-- `pd.DataFrame()` (line 112 of `src/main.py`). -/
def emptyFrame : Frame := ⟨[], []⟩

def colHL : String := "funding_hl"

def colDV : String := "funding_derive"

def colBN : String := "funding_binance"

def bpsSuffix : String := "_bps"

def spreadHLDV : String := "spread_hl_derive_bps"

def spreadHLBN : String := "spread_hl_binance_bps"

def spreadDVBN : String := "spread_derive_binance_bps"

/-- The per-venue resampled frames collected into `frames`
(`src/main.py`, lines 66-109): a venue contributes only when its raw
dataframe is non-empty; Hyperliquid and Derive are aggregated by mean,
Binance is forward-filled. -/
def venueFrames (freq : Nat) (hl dv bn : List (Nat × Rat)) :
    List (String × List (Nat × Option Rat)) :=
  (if hl.isEmpty then [] else [(colHL, resampleMean freq hl)]) ++
  (if dv.isEmpty then [] else [(colDV, resampleMean freq dv)]) ++
  (if bn.isEmpty then [] else [(colBN, resampleFfill freq bn)])

/-- Reindexing a resampled series onto the joined time index: an index
entry outside the series grid gets a `none` (NaN) cell. -/
def reindex (times : List Nat) (ser : List (Nat × Option Rat)) :
    List (Nat × Option Rat) :=
  times.map fun t => (t, (ser.lookup t).getD none)

/-- NaN-propagating cell subtraction used by the spread columns. -/
def cellSub (a b : Option Rat) : Option Rat :=
  match a, b with
  | some x, some y => some (x - y)
  | _, _ => none

/-- One spread column (`src/main.py`, lines 127-140): present only when
both bps columns exist; a spread cell is `none` unless both inputs are
present. -/
def spreadCol (cols : List (String × List (Nat × Option Rat)))
    (nm a b : String) : List (String × List (Nat × Option Rat)) :=
  match cols.lookup a, cols.lookup b with
  | some ca, some cb =>
    [(nm, List.zipWith (fun p q => (p.1, cellSub p.2 q.2)) ca cb)]
  | _, _ => []

/-- The joined time index: the sorted union of the per-venue grids, as
produced by the sequence of outer joins followed by `sort_index()`
(`src/main.py`, lines 114-118). -/
def joinTimes (frames : List (String × List (Nat × Option Rat))) : List Nat :=
  List.insertionSort (· ≤ ·) (frames.flatMap fun p => p.2.map Prod.fst).dedup

/-- The bps companion of a venue column (`src/main.py`, lines 122-124). -/
def bpsCol (p : String × List (Nat × Option Rat)) :
    String × List (Nat × Option Rat) :=
  (p.1 ++ bpsSuffix, p.2.map fun q => (q.1, q.2.map (· * 10000)))

/-- The columns of the merged dataframe: the reindexed venue columns,
their bps companions, and the three pairwise spread columns. -/
def mergedCols (frames : List (String × List (Nat × Option Rat)))
    (times : List Nat) : List (String × List (Nat × Option Rat)) :=
  let venueCols := frames.map fun p => (p.1, reindex times p.2)
  let allBps := venueCols ++ venueCols.map bpsCol
  allBps ++
    (spreadCol allBps spreadHLDV (colHL ++ bpsSuffix) (colDV ++ bpsSuffix) ++
     spreadCol allBps spreadHLBN (colHL ++ bpsSuffix) (colBN ++ bpsSuffix) ++
     spreadCol allBps spreadDVBN (colDV ++ bpsSuffix) (colBN ++ bpsSuffix))

/-- `prepare_merged_timeseries` (`src/main.py`, lines 56-142): per-venue
resampling, the explicit empty frame when no venue produced data, the
sequence of outer joins on the time index followed by `sort_index()`,
the bps columns and the three pairwise spread columns. -/
def prepareMerged (hl dv bn : List (Nat × Rat)) (freq : Nat) : Frame :=
  let frames := venueFrames freq hl dv bn
  if frames.isEmpty then emptyFrame
  else ⟨joinTimes frames, mergedCols frames (joinTimes frames)⟩

/-- Cell access in a merged frame: the column of the given name, then
the cell at the given index entry. -/
def cellAt (f : Frame) (name : String) (t : Nat) : Option (Option Rat) :=
  (f.cols.lookup name).bind fun col => col.lookup t

/-- The most recent observation at or before `t`, if any. -/
def lastLE (obs : List (Nat × Rat)) (t : Nat) : Option Rat :=
  ((obs.filter fun o => o.1 ≤ t).getLast?).map Prod.snd

/-- The timestamp of the first observation of a series (0 for an empty
series). -/
def firstTs (obs : List (Nat × Rat)) : Nat :=
  (obs.head?.map Prod.fst).getD 0

/-- The timestamp of the last observation of a series (0 for an empty
series). -/
def lastTs (obs : List (Nat × Rat)) : Nat :=
  (obs.getLast?.map Prod.fst).getD 0

/-! ### Helper lemmas -/

theorem insertionSort_ne_nil {α : Type} (r : α → α → Prop) [DecidableRel r]
    {l : List α} (h : l ≠ []) : List.insertionSort r l ≠ [] := by
  intro hs
  have hp := List.perm_insertionSort r l
  rw [hs] at hp
  exact h hp.symm.eq_nil

theorem sortByTs_ne_nil {obs : List (Nat × Rat)} (h : obs ≠ []) :
    sortByTs obs ≠ [] := insertionSort_ne_nil obsLE h

theorem gridOf_ne_nil (freq : Nat) {s : List (Nat × Rat)} (h : s ≠ []) :
    gridOf freq s ≠ [] := by
  obtain ⟨a, s', rfl⟩ := List.exists_cons_of_ne_nil h
  have hlast : (a :: s').getLast? = some ((a :: s').getLast (by simp)) :=
    List.getLast?_eq_getLast _ _
  simp only [gridOf, List.head?_cons, hlast]
  simp [List.range_succ]

theorem ffillCells_map_fst (obs : List (Nat × Rat)) (carry : Option Rat)
    (ts : List Nat) : (ffillCells obs carry ts).map Prod.fst = ts := by
  induction ts generalizing obs carry with
  | nil => rfl
  | cons t ts ih => simp [ffillCells, ih]

theorem resampleMean_ne_nil (freq : Nat) {obs : List (Nat × Rat)}
    (h : obs ≠ []) : resampleMean freq obs ≠ [] := by
  simp only [resampleMean, ne_eq, List.map_eq_nil_iff]
  exact gridOf_ne_nil freq (sortByTs_ne_nil h)

theorem resampleFfill_ne_nil (freq : Nat) {obs : List (Nat × Rat)}
    (h : obs ≠ []) : resampleFfill freq obs ≠ [] := by
  have hg := gridOf_ne_nil freq (sortByTs_ne_nil h)
  simp only [resampleFfill]
  intro hc
  have := ffillCells_map_fst (sortByTs obs) none (gridOf freq (sortByTs obs))
  rw [hc] at this
  exact hg this.symm

theorem prepareMerged_ne_empty {hl dv bn : List (Nat × Rat)} {freq : Nat}
    (h : hl ≠ [] ∨ dv ≠ [] ∨ bn ≠ []) :
    prepareMerged hl dv bn freq ≠ emptyFrame := by
  have key : ∃ p ∈ venueFrames freq hl dv bn, p.2 ≠ [] := by
    rcases h with h | h | h
    · exact ⟨(colHL, resampleMean freq hl), by
        simp [venueFrames, List.isEmpty_iff, h], resampleMean_ne_nil freq h⟩
    · exact ⟨(colDV, resampleMean freq dv), by
        simp [venueFrames, List.isEmpty_iff, h], resampleMean_ne_nil freq h⟩
    · exact ⟨(colBN, resampleFfill freq bn), by
        simp [venueFrames, List.isEmpty_iff, h], resampleFfill_ne_nil freq h⟩
  obtain ⟨p, hp, hne⟩ := key
  have hframes : ¬ (venueFrames freq hl dv bn).isEmpty := by
    intro hempty
    rw [List.isEmpty_iff] at hempty
    rw [hempty] at hp
    exact absurd hp (List.not_mem_nil p)
  obtain ⟨y, hy⟩ := List.exists_mem_of_ne_nil p.2 hne
  have hmem : y.1 ∈ (venueFrames freq hl dv bn).flatMap fun q => q.2.map Prod.fst := by
    exact List.mem_flatMap.2 ⟨p, hp, List.mem_map_of_mem Prod.fst hy⟩
  have htimes :
      List.insertionSort (· ≤ ·)
        ((venueFrames freq hl dv bn).flatMap fun q => q.2.map Prod.fst).dedup ≠ [] := by
    apply insertionSort_ne_nil
    exact List.ne_nil_of_mem (List.mem_dedup.2 hmem)
  simp only [prepareMerged, hframes, if_false, Bool.false_eq_true]
  intro hcontr
  have := congrArg Frame.times hcontr
  exact htimes this

/-- The window predicate applied by an honest Binance server when a
start bound is supplied. -/
def inWindow (cs : Nat) (endMs : Option Nat) (r : BinanceRow) : Bool :=
  decide (cs ≤ r.fundingTime) &&
    (match endMs with | some e => decide (r.fundingTime ≤ e) | none => true)

theorem honestBinServer_some (data : List BinanceRow) (limit : Int)
    (endMs : Option Nat) (cs : Nat) :
    honestBinServer data limit endMs (some cs) =
      (data.filter (inWindow cs endMs)).take limit.toNat := rfl

theorem foldl_max_le {l : List Nat} {a : Nat} :
    a ≤ l.foldl max a ∧ ∀ x ∈ l, x ≤ l.foldl max a := by
  induction l generalizing a with
  | nil => simp
  | cons y ys ih =>
    refine ⟨?_, ?_⟩
    · exact le_trans (le_max_left a y) (ih (a := max a y)).1
    · intro x hx
      rcases List.mem_cons.1 hx with rfl | hx
      · exact le_trans (le_max_right a x) (ih (a := max a x)).1
      · exact (ih (a := max a y)).2 x hx

theorem foldl_max_mem (l : List Nat) (a : Nat) :
    l.foldl max a = a ∨ l.foldl max a ∈ l := by
  induction l generalizing a with
  | nil => left; rfl
  | cons y ys ih =>
    rcases ih (max a y) with h | h
    · rw [List.foldl_cons, h]
      rcases Nat.le_total a y with hle | hle
      · right
        rw [Nat.max_eq_right hle]
        exact List.mem_cons_self y ys
      · left
        exact Nat.max_eq_left hle
    · right
      exact List.mem_cons_of_mem y h

theorem le_batchMaxTs {batch : List BinanceRow} :
    ∀ r ∈ batch, r.fundingTime ≤ batchMaxTs batch := by
  intro r hr
  exact foldl_max_le.2 _ (List.mem_map_of_mem (·.fundingTime) hr)

theorem batchMaxTs_mem {batch : List BinanceRow} (h : batch ≠ []) :
    ∃ r ∈ batch, r.fundingTime = batchMaxTs batch := by
  rcases foldl_max_mem (batch.map (·.fundingTime)) 0 with h0 | hm
  · obtain ⟨r, rb, rfl⟩ := List.exists_cons_of_ne_nil h
    have h1 : r.fundingTime ≤ batchMaxTs (r :: rb) := le_batchMaxTs r (by simp)
    have h2 : batchMaxTs (r :: rb) = 0 := h0
    exact ⟨r, by simp, by omega⟩
  · obtain ⟨r, hr, hrts⟩ := List.mem_map.1 hm
    exact ⟨r, hr, hrts⟩

theorem inWindow_step {cs ns : Nat} (h : cs ≤ ns) (endMs : Option Nat)
    (r : BinanceRow) :
    inWindow ns endMs r = (inWindow cs endMs r && decide (ns ≤ r.fundingTime)) := by
  by_cases h1 : ns ≤ r.fundingTime
  · have h2 : cs ≤ r.fundingTime := le_trans h h1
    cases endMs <;> simp [inWindow, h1, h2]
  · cases endMs <;> simp [inWindow, h1, Bool.and_comm]

/-- Under an upstream honouring the requested window over a history with
strictly increasing funding times, the pagination loop of
`get_funding_rate_history` terminates and the concatenation of its
batches is exactly the in-window part of the history. -/
theorem honest_paginate (data : List BinanceRow)
    (hsort : data.Pairwise fun a b => a.fundingTime < b.fundingTime)
    (limit : Int) (hlim : 1 ≤ limit) (endMs : Option Nat) :
    ∀ fuel cs, (data.filter (inWindow cs endMs)).length < fuel →
      ∃ batches,
        binPaginate (honestBinServer data limit endMs) limit endMs fuel (some cs) =
          some batches ∧
        batches.flatten = data.filter (inWindow cs endMs) := by
  intro fuel
  induction fuel with
  | zero => intro cs h; omega
  | succ f ih =>
    intro cs hlen
    have hn : 1 ≤ limit.toNat := by omega
    by_cases hF : data.filter (inWindow cs endMs) = []
    · refine ⟨[[]], ?_, by simp [hF]⟩
      simp [binPaginate, honestBinServer_some, hF]
    · set F := data.filter (inWindow cs endMs) with hFdef
      have hbatch_ne : F.take limit.toNat ≠ [] := by
        simp only [ne_eq, List.take_eq_nil_iff]
        push_neg
        constructor
        · omega
        · exact hF
      by_cases hshort : F.length < limit.toNat
      · -- the batch is the whole remaining window: the loop exits short
        have hball : F.take limit.toNat = F :=
          List.take_of_length_le (le_of_lt hshort)
        refine ⟨[F], ?_, by simp⟩
        rw [binPaginate]
        simp only [honestBinServer_some, ← hFdef, hball,
          List.isEmpty_iff, hF, if_false]
        have hlt : (F.length : Int) < limit := by omega
        simp [hlt]
      · -- a full batch
        push_neg at hshort
        set batch := F.take limit.toNat with hbdef
        have hblen : batch.length = limit.toNat := by
          rw [hbdef, List.length_take]
          omega
        have hnotlt : ¬ ((batch.length : Int) < limit) := by
          rw [hblen]; omega
        have hFsort : F.Pairwise fun a b => a.fundingTime < b.fundingTime :=
          hsort.sublist (List.filter_sublist data)
        have hbsort : batch.Pairwise fun a b => a.fundingTime < b.fundingTime :=
          hFsort.sublist (List.take_sublist _ _)
        obtain ⟨rM, hrM, hrMts⟩ := batchMaxTs_mem hbatch_ne
        have hsplit : batch ++ F.drop limit.toNat = F := List.take_append_drop _ _
        have hcs_le : ∀ r ∈ F, cs ≤ r.fundingTime := by
          intro r hr
          have := List.of_mem_filter (p := inWindow cs endMs) (by rw [hFdef] at hr; exact hr)
          simp only [inWindow, Bool.and_eq_true, decide_eq_true_eq] at this
          exact this.1
        have hM_ge_cs : cs ≤ batchMaxTs batch := by
          rw [← hrMts]
          exact hcs_le rM ((List.take_sublist _ _).mem hrM)
        have hrest_gt : ∀ b ∈ F.drop limit.toNat,
            batchMaxTs batch < b.fundingTime := by
          intro b hb
          have hpw := hsplit ▸ hFsort
          rw [List.pairwise_append] at hpw
          rw [← hrMts]
          exact hpw.2.2 rM hrM b hb
        have hbatch_le : ∀ r ∈ batch, r.fundingTime ≤ batchMaxTs batch :=
          le_batchMaxTs
        -- the next window is exactly the rows the loop has not yet seen
        have hnextF : data.filter (inWindow (batchMaxTs batch + 1) endMs) =
            F.drop limit.toNat := by
          have h1 : data.filter (inWindow (batchMaxTs batch + 1) endMs) =
              F.filter fun r => decide (batchMaxTs batch + 1 ≤ r.fundingTime) := by
            rw [hFdef, List.filter_filter]
            exact List.filter_congr fun r _ =>
              (inWindow_step (by omega) endMs r).trans (Bool.and_comm _ _)
          rw [h1]
          have h2 : batch.filter
              (fun r => decide (batchMaxTs batch + 1 ≤ r.fundingTime)) = [] := by
            apply List.filter_eq_nil_iff.2
            intro r hr
            have := hbatch_le r hr
            simp only [decide_eq_true_eq]
            omega
          have h3 : (F.drop limit.toNat).filter
              (fun r => decide (batchMaxTs batch + 1 ≤ r.fundingTime)) =
              F.drop limit.toNat := by
            apply List.filter_eq_self.2
            intro r hr
            have := hrest_gt r hr
            simp only [decide_eq_true_eq]
            omega
          conv_lhs => rw [← hsplit]
          rw [List.filter_append, h2, h3, List.nil_append]
        have hdroplen : (F.drop limit.toNat).length < f := by
          rw [List.length_drop]
          omega
        rw [binPaginate]
        simp only [honestBinServer_some, ← hFdef, ← hbdef,
          List.isEmpty_iff, hbatch_ne, if_false, hnotlt]
        cases endMs with
        | none =>
          obtain ⟨batches', heq, hflat⟩ :=
            ih (batchMaxTs batch + 1) (by rw [hnextF]; exact hdroplen)
          refine ⟨batch :: batches', ?_, ?_⟩
          · rw [heq]
            rfl
          · simp only [List.flatten_cons, hflat, hnextF, hsplit]
        | some e =>
          by_cases hend : e < batchMaxTs batch + 1
          · -- the advanced start exceeds the end bound: exit with this batch
            refine ⟨[batch], by simp [hend], ?_⟩
            have hdrop_nil : F.drop limit.toNat = [] := by
              rcases hrest : F.drop limit.toNat with _ | ⟨b, bs⟩
              · rfl
              · exfalso
                have hb : b ∈ F.drop limit.toNat := by rw [hrest]; simp
                have hgt := hrest_gt b hb
                have hbF : b ∈ F := (List.drop_sublist _ _).mem hb
                have := List.of_mem_filter (p := inWindow cs (some e))
                  (by rw [hFdef] at hbF; exact hbF)
                simp only [inWindow, Bool.and_eq_true, decide_eq_true_eq] at this
                omega
            calc [batch].flatten = batch ++ F.drop limit.toNat := by
                  simp [hdrop_nil]
              _ = F := hsplit
          · obtain ⟨batches', heq, hflat⟩ :=
              ih (batchMaxTs batch + 1) (by rw [hnextF]; exact hdroplen)
            refine ⟨batch :: batches', ?_, ?_⟩
            · simp only [if_neg hend, heq]
              rfl
            · simp only [List.flatten_cons, hflat, hnextF, hsplit]

section LookupLemmas

variable {α β : Type}

theorem lookup_map_key (g : Nat → α) :
    ∀ (ts : List Nat) (t : Nat),
      (ts.map fun u => (u, g u)).lookup t = if t ∈ ts then some (g t) else none := by
  intro ts
  induction ts with
  | nil => intro t; simp [List.lookup]
  | cons u us ih =>
    intro t
    by_cases h : t = u
    · subst h
      simp [List.lookup]
    · have hbeq : (t == u) = false := by simp [h]
      simp [List.lookup, hbeq, ih, h]

theorem lookup_append (l₁ l₂ : List (String × α)) (k : String) :
    (l₁ ++ l₂).lookup k = ((l₁.lookup k).orElse fun _ => l₂.lookup k) := by
  induction l₁ with
  | nil => simp [List.lookup]
  | cons p l₁ ih =>
    by_cases h : k = p.1
    · have hbeq : (k == p.1) = true := by simp [h]
      simp [List.lookup, hbeq]
    · have hbeq : (k == p.1) = false := by simp [h]
      simp [List.lookup, hbeq, ih]

theorem lookup_map_val (f : α → β) (l : List (String × α)) (k : String) :
    (l.map fun p => (p.1, f p.2)).lookup k = (l.lookup k).map f := by
  induction l with
  | nil => simp [List.lookup]
  | cons p l ih =>
    by_cases h : k = p.1
    · have hbeq : (k == p.1) = true := by simp [h]
      simp [List.lookup, hbeq]
    · have hbeq : (k == p.1) = false := by simp [h]
      simp [List.lookup, hbeq, ih]

theorem lookup_eq_none_of (l : List (String × α)) (k : String)
    (h : ∀ p ∈ l, p.1 ≠ k) : l.lookup k = none := by
  induction l with
  | nil => rfl
  | cons p l ih =>
    have hp : p.1 ≠ k := h p (by simp)
    have hbeq : (k == p.1) = false := by
      simp only [beq_eq_false_iff_ne, ne_eq]
      exact fun hc => hp hc.symm
    simp only [List.lookup, hbeq]
    exact ih fun q hq => h q (by simp [hq])

end LookupLemmas

theorem venueFrames_name_mem {freq : Nat} {hl dv bn : List (Nat × Rat)}
    {p : String × List (Nat × Option Rat)} (hp : p ∈ venueFrames freq hl dv bn) :
    p.1 = colHL ∨ p.1 = colDV ∨ p.1 = colBN := by
  simp only [venueFrames, List.mem_append] at hp
  rcases hp with (hp | hp) | hp <;>
    [skip; skip; skip] <;>
    · split at hp
      · exact absurd hp (List.not_mem_nil p)
      · simp only [List.mem_singleton] at hp
        subst hp
        simp

theorem spreadCol_name_mem {cols : List (String × List (Nat × Option Rat))}
    {nm a b : String} {q : String × List (Nat × Option Rat)}
    (hq : q ∈ spreadCol cols nm a b) : q.1 = nm := by
  unfold spreadCol at hq
  split at hq
  · simp only [List.mem_singleton] at hq
    subst hq
    rfl
  · exact absurd hq (List.not_mem_nil q)

theorem venueFrames_lookup_hl (freq : Nat) (hl dv bn : List (Nat × Rat)) :
    (venueFrames freq hl dv bn).lookup colHL =
      if hl.isEmpty then none else some (resampleMean freq hl) := by
  by_cases h1 : hl.isEmpty <;> by_cases h2 : dv.isEmpty <;>
    by_cases h3 : bn.isEmpty <;>
    simp [venueFrames, h1, h2, h3, List.lookup, colHL, colDV, colBN]

theorem venueFrames_lookup_dv (freq : Nat) (hl dv bn : List (Nat × Rat)) :
    (venueFrames freq hl dv bn).lookup colDV =
      if dv.isEmpty then none else some (resampleMean freq dv) := by
  by_cases h1 : hl.isEmpty <;> by_cases h2 : dv.isEmpty <;>
    by_cases h3 : bn.isEmpty <;>
    simp [venueFrames, h1, h2, h3, List.lookup, colHL, colDV, colBN]

theorem venueFrames_lookup_bn (freq : Nat) (hl dv bn : List (Nat × Rat)) :
    (venueFrames freq hl dv bn).lookup colBN =
      if bn.isEmpty then none else some (resampleFfill freq bn) := by
  by_cases h1 : hl.isEmpty <;> by_cases h2 : dv.isEmpty <;>
    by_cases h3 : bn.isEmpty <;>
    simp [venueFrames, h1, h2, h3, List.lookup, colHL, colDV, colBN]

theorem mergedCols_lookup (freq : Nat) (hl dv bn : List (Nat × Rat))
    (times : List Nat) (name : String)
    (hname : name = colHL ∨ name = colDV ∨ name = colBN) :
    (mergedCols (venueFrames freq hl dv bn) times).lookup name =
      ((venueFrames freq hl dv bn).lookup name).map fun ser =>
        reindex times ser := by
  set frames := venueFrames freq hl dv bn with hframes
  have hvenue : (frames.map fun p => (p.1, reindex times p.2)).lookup name =
      (frames.lookup name).map fun ser => reindex times ser :=
    lookup_map_val _ frames name
  have hbps : ((frames.map fun p => (p.1, reindex times p.2)).map bpsCol).lookup
      name = none := by
    apply lookup_eq_none_of
    intro q hq
    obtain ⟨p, hp, rfl⟩ := List.mem_map.1 hq
    obtain ⟨p0, hp0, rfl⟩ := List.mem_map.1 hp
    have hnm := venueFrames_name_mem (hframes ▸ hp0)
    simp only [bpsCol]
    rcases hnm with h | h | h <;> rw [h] <;>
      rcases hname with rfl | rfl | rfl <;> decide
  have hspread : ∀ nm a b, nm = spreadHLDV ∨ nm = spreadHLBN ∨ nm = spreadDVBN →
      ∀ (cols : List (String × List (Nat × Option Rat))),
        (spreadCol cols nm a b).lookup name = none := by
    intro nm a b hnm cols
    apply lookup_eq_none_of
    intro q hq
    rw [spreadCol_name_mem hq]
    rcases hnm with rfl | rfl | rfl <;> rcases hname with rfl | rfl | rfl <;> decide
  simp only [mergedCols]
  rw [lookup_append, lookup_append, hvenue, hbps, lookup_append, lookup_append,
    hspread _ _ _ (Or.inl rfl), hspread _ _ _ (Or.inr (Or.inl rfl)),
    hspread _ _ _ (Or.inr (Or.inr rfl))]
  cases frames.lookup name <;> rfl

/-- Cell access for the Binance column of the merged frame. -/
theorem cellAt_bn (hl dv bn : List (Nat × Rat)) (freq : Nat) (hbn : bn ≠ [])
    (t : Nat) (ht : t ∈ (prepareMerged hl dv bn freq).times) :
    cellAt (prepareMerged hl dv bn freq) colBN t =
      some (((resampleFfill freq bn).lookup t).getD none) := by
  have hframes : ¬ (venueFrames freq hl dv bn).isEmpty := by
    intro hempty
    rw [List.isEmpty_iff] at hempty
    have : (colBN, resampleFfill freq bn) ∈ venueFrames freq hl dv bn := by
      simp [venueFrames, List.isEmpty_iff, hbn]
    rw [hempty] at this
    exact absurd this (List.not_mem_nil _)
  have hshape : prepareMerged hl dv bn freq =
      ⟨joinTimes (venueFrames freq hl dv bn),
       mergedCols (venueFrames freq hl dv bn)
         (joinTimes (venueFrames freq hl dv bn))⟩ := by
    simp [prepareMerged, hframes]
  rw [hshape] at ht ⊢
  simp only [cellAt]
  rw [mergedCols_lookup freq hl dv bn _ colBN (Or.inr (Or.inr rfl)),
    venueFrames_lookup_bn]
  have hbn' : bn.isEmpty = false := by
    simp [List.isEmpty_iff, hbn]
  simp [hbn', reindex, lookup_map_key, ht]

/-- Cell access for the Hyperliquid column of the merged frame. -/
theorem cellAt_hl (hl dv bn : List (Nat × Rat)) (freq : Nat) (hhl : hl ≠ [])
    (t : Nat) (ht : t ∈ (prepareMerged hl dv bn freq).times) :
    cellAt (prepareMerged hl dv bn freq) colHL t =
      some (((resampleMean freq hl).lookup t).getD none) := by
  have hframes : ¬ (venueFrames freq hl dv bn).isEmpty := by
    intro hempty
    rw [List.isEmpty_iff] at hempty
    have : (colHL, resampleMean freq hl) ∈ venueFrames freq hl dv bn := by
      simp [venueFrames, List.isEmpty_iff, hhl]
    rw [hempty] at this
    exact absurd this (List.not_mem_nil _)
  have hshape : prepareMerged hl dv bn freq =
      ⟨joinTimes (venueFrames freq hl dv bn),
       mergedCols (venueFrames freq hl dv bn)
         (joinTimes (venueFrames freq hl dv bn))⟩ := by
    simp [prepareMerged, hframes]
  rw [hshape] at ht ⊢
  simp only [cellAt]
  rw [mergedCols_lookup freq hl dv bn _ colHL (Or.inl rfl),
    venueFrames_lookup_hl]
  have hhl' : hl.isEmpty = false := by
    simp [List.isEmpty_iff, hhl]
  simp [hhl', reindex, lookup_map_key, ht]

/-- Cell access for the Derive column of the merged frame. -/
theorem cellAt_dv (hl dv bn : List (Nat × Rat)) (freq : Nat) (hdv : dv ≠ [])
    (t : Nat) (ht : t ∈ (prepareMerged hl dv bn freq).times) :
    cellAt (prepareMerged hl dv bn freq) colDV t =
      some (((resampleMean freq dv).lookup t).getD none) := by
  have hframes : ¬ (venueFrames freq hl dv bn).isEmpty := by
    intro hempty
    rw [List.isEmpty_iff] at hempty
    have : (colDV, resampleMean freq dv) ∈ venueFrames freq hl dv bn := by
      simp [venueFrames, List.isEmpty_iff, hdv]
    rw [hempty] at this
    exact absurd this (List.not_mem_nil _)
  have hshape : prepareMerged hl dv bn freq =
      ⟨joinTimes (venueFrames freq hl dv bn),
       mergedCols (venueFrames freq hl dv bn)
         (joinTimes (venueFrames freq hl dv bn))⟩ := by
    simp [prepareMerged, hframes]
  rw [hshape] at ht ⊢
  simp only [cellAt]
  rw [mergedCols_lookup freq hl dv bn _ colDV (Or.inr (Or.inl rfl)),
    venueFrames_lookup_dv]
  have hdv' : dv.isEmpty = false := by
    simp [List.isEmpty_iff, hdv]
  simp [hdv', reindex, lookup_map_key, ht]

theorem sorted_takeWhile_filter (t : Nat) :
    ∀ {obs : List (Nat × Rat)}, List.Pairwise obsLE obs →
      (obs.takeWhile fun o => o.1 ≤ t) = (obs.filter fun o => o.1 ≤ t) ∧
      (obs.dropWhile fun o => o.1 ≤ t) = (obs.filter fun o => ¬ o.1 ≤ t) := by
  intro obs
  induction obs with
  | nil => intro _; exact ⟨rfl, rfl⟩
  | cons o os ih =>
    intro h
    obtain ⟨hhead, htail⟩ := List.pairwise_cons.1 h
    by_cases ho : o.1 ≤ t
    · have hb : (decide (o.1 ≤ t)) = true := by simp [ho]
      constructor
      · simp [List.takeWhile_cons, List.filter_cons, hb, (ih htail).1]
      · simp [List.dropWhile_cons, List.filter_cons, hb, (ih htail).2, ho]
    · have hb : (decide (o.1 ≤ t)) = false := by simp [ho]
      constructor
      · have hos : (os.filter fun x => x.1 ≤ t) = [] := by
          apply List.filter_eq_nil_iff.2
          intro x hx
          have hle : o.1 ≤ x.1 := hhead x hx
          simp only [decide_eq_true_eq]
          omega
        simp [List.takeWhile_cons, List.filter_cons, hb, hos]
      · have hos : (os.filter fun x => decide (t < x.1)) = os := by
          apply List.filter_eq_self.2
          intro x hx
          have hle : o.1 ≤ x.1 := hhead x hx
          simp only [decide_eq_true_eq]
          omega
        have hlt : t < o.1 := by omega
        simp [List.dropWhile_cons, List.filter_cons, hb, hos, ho, hlt]

theorem ffillCells_eq_lastLE :
    ∀ (ts : List Nat) (done obs : List (Nat × Rat)),
      List.Pairwise obsLE (done ++ obs) →
      List.Pairwise (· ≤ ·) ts →
      (∀ o ∈ done, ∀ u ∈ ts, o.1 ≤ u) →
      ffillCells obs ((done.getLast?).map Prod.snd) ts =
        ts.map fun u => (u, lastLE (done ++ obs) u) := by
  intro ts
  induction ts with
  | nil => intro done obs _ _ _; rfl
  | cons t ts ih =>
    intro done obs hsorted hts hdone
    have hobs : List.Pairwise obsLE obs := (List.pairwise_append.1 hsorted).2.1
    obtain ⟨htw, hdw⟩ := sorted_takeWhile_filter t hobs
    simp only [ffillCells]
    rw [htw, hdw]
    have hdf : (done.filter fun o => decide (o.1 ≤ t)) = done :=
      List.filter_eq_self.2 fun o ho => by
        simp only [decide_eq_true_eq]
        exact hdone o ho t (by simp)
    have hc : (match (obs.filter fun o => o.1 ≤ t).getLast? with
        | some o => some o.2
        | none => (done.getLast?).map Prod.snd) =
        ((done ++ obs.filter fun o => o.1 ≤ t).getLast?).map Prod.snd := by
      cases hpre : (obs.filter fun o => o.1 ≤ t).getLast? with
      | none =>
        dsimp only
        rw [List.getLast?_append, hpre]
        rfl
      | some o =>
        dsimp only
        rw [List.getLast?_append, hpre]
        rfl
    have hcell : lastLE (done ++ obs) t =
        ((done ++ obs.filter fun o => o.1 ≤ t).getLast?).map Prod.snd := by
      unfold lastLE
      rw [List.filter_append, hdf]
    have hjoin : (done ++ (obs.filter fun o => o.1 ≤ t)) ++
        (obs.filter fun o => ¬ o.1 ≤ t) = done ++ obs := by
      rw [List.append_assoc]
      congr 1
      rw [← htw, ← hdw, List.takeWhile_append_dropWhile]
    refine congrArg₂ List.cons ?_ ?_
    · rw [hc]
      exact congrArg (Prod.mk t) hcell.symm
    · rw [hc]
      have hsorted' : List.Pairwise obsLE
          ((done ++ (obs.filter fun o => o.1 ≤ t)) ++
            (obs.filter fun o => ¬ o.1 ≤ t)) := by
        rw [hjoin]
        exact hsorted
      have hts' : List.Pairwise (· ≤ ·) ts := (List.pairwise_cons.1 hts).2
      have hdone' : ∀ o ∈ done ++ (obs.filter fun o => o.1 ≤ t),
          ∀ u ∈ ts, o.1 ≤ u := by
        intro o ho u hu
        rcases List.mem_append.1 ho with ho | ho
        · exact hdone o ho u (by simp [hu])
        · have h1 : o.1 ≤ t := by
            have := List.of_mem_filter ho
            simpa using this
          have h2 : t ≤ u := (List.pairwise_cons.1 hts).1 u hu
          omega
      rw [ih (done ++ (obs.filter fun o => o.1 ≤ t))
        (obs.filter fun o => ¬ o.1 ≤ t) hsorted' hts' hdone']
      simp only [hjoin]

theorem ffillCells_spec (obs : List (Nat × Rat))
    (hobs : List.Pairwise obsLE obs) (ts : List Nat)
    (hts : List.Pairwise (· ≤ ·) ts) :
    ffillCells obs none ts = ts.map fun u => (u, lastLE obs u) := by
  have h := ffillCells_eq_lastLE ts [] obs (by simpa using hobs) hts (by simp)
  simpa using h

theorem gridOf_pairwise (freq : Nat) (s : List (Nat × Rat)) :
    List.Pairwise (· ≤ ·) (gridOf freq s) := by
  cases h1 : s.head? with
  | none => simp [gridOf, h1]
  | some a =>
    cases h2 : s.getLast? with
    | none => simp [gridOf, h1, h2]
    | some b =>
      simp only [gridOf, h1, h2]
      refine List.Pairwise.map _ ?_ (List.pairwise_lt_range _)
      intro k k' hkk
      exact Nat.add_le_add_left (Nat.mul_le_mul_right _ (le_of_lt hkk)) _

theorem gridOf_dvd {freq : Nat} {s : List (Nat × Rat)} {t : Nat}
    (ht : t ∈ gridOf freq s) : freq ∣ t := by
  cases h1 : s.head? with
  | none => simp [gridOf, h1] at ht
  | some a =>
    cases h2 : s.getLast? with
    | none => simp [gridOf, h1, h2] at ht
    | some b =>
      simp only [gridOf, h1, h2, List.mem_map, List.mem_range] at ht
      obtain ⟨k, -, rfl⟩ := ht
      exact ⟨a.1 / freq + k, by unfold binOf; ring⟩

theorem mem_gridOf {freq : Nat} (hfreq : 0 < freq) {s : List (Nat × Rat)}
    {a b : Nat × Rat} (hhead : s.head? = some a) (hlast : s.getLast? = some b)
    (hab : a.1 ≤ b.1) (t : Nat) (hdvd : freq ∣ t) :
    t ∈ gridOf freq s ↔ (binOf freq a.1 ≤ t ∧ t ≤ binOf freq b.1) := by
  obtain ⟨m, rfl⟩ := hdvd
  simp only [gridOf, hhead, hlast, List.mem_map, List.mem_range, binOf]
  have hm01 : a.1 / freq ≤ b.1 / freq := Nat.div_le_div_right hab
  have hsub : (b.1 / freq * freq - a.1 / freq * freq) / freq =
      b.1 / freq - a.1 / freq := by
    rw [← Nat.sub_mul, Nat.mul_div_cancel _ hfreq]
  rw [hsub]
  constructor
  · rintro ⟨k, hk, hkeq⟩
    have hkeq' : (a.1 / freq + k) * freq = freq * m := by
      rw [Nat.add_mul]
      omega
    have hm : a.1 / freq + k = m := by
      rw [Nat.mul_comm freq m] at hkeq'
      exact Nat.eq_of_mul_eq_mul_right hfreq hkeq'
    constructor
    · calc a.1 / freq * freq ≤ (a.1 / freq + k) * freq :=
            Nat.mul_le_mul_right _ (by omega)
        _ = freq * m := hkeq'
    · calc freq * m = (a.1 / freq + k) * freq := hkeq'.symm
        _ ≤ b.1 / freq * freq := Nat.mul_le_mul_right _ (by omega)
  · rintro ⟨hlo, hhi⟩
    rw [Nat.mul_comm freq m] at hlo hhi
    have hm0m : a.1 / freq ≤ m := Nat.le_of_mul_le_mul_right hlo hfreq
    have hmm1 : m ≤ b.1 / freq := Nat.le_of_mul_le_mul_right hhi hfreq
    refine ⟨m - a.1 / freq, by omega, ?_⟩
    rw [← Nat.add_mul]
    have hmsum : a.1 / freq + (m - a.1 / freq) = m := by omega
    rw [hmsum, Nat.mul_comm]

theorem mem_joinTimes {frames : List (String × List (Nat × Option Rat))}
    {t : Nat} :
    t ∈ joinTimes frames ↔ ∃ p ∈ frames, ∃ c, (t, c) ∈ p.2 := by
  unfold joinTimes
  rw [List.Perm.mem_iff (List.perm_insertionSort _ _), List.mem_dedup,
    List.mem_flatMap]
  constructor
  · rintro ⟨p, hp, ht⟩
    obtain ⟨x, hx, hxt⟩ := List.mem_map.1 ht
    exact ⟨p, hp, x.2, by rwa [show (t, x.2) = x from by rw [← hxt]]⟩
  · rintro ⟨p, hp, c, hc⟩
    exact ⟨p, hp, List.mem_map.2 ⟨(t, c), hc, rfl⟩⟩

theorem venueFrames_series_fst {freq : Nat} {hl dv bn : List (Nat × Rat)}
    {p : String × List (Nat × Option Rat)}
    (hp : p ∈ venueFrames freq hl dv bn) :
    ∃ obs : List (Nat × Rat), p.2.map Prod.fst = gridOf freq (sortByTs obs) := by
  simp only [venueFrames, List.mem_append] at hp
  rcases hp with (hp | hp) | hp
  · refine ⟨hl, ?_⟩
    split at hp
    · exact absurd hp (List.not_mem_nil p)
    · simp only [List.mem_singleton] at hp
      subst hp
      simp [resampleMean, List.map_map, Function.comp_def]
  · refine ⟨dv, ?_⟩
    split at hp
    · exact absurd hp (List.not_mem_nil p)
    · simp only [List.mem_singleton] at hp
      subst hp
      simp [resampleMean, List.map_map, Function.comp_def]
  · refine ⟨bn, ?_⟩
    split at hp
    · exact absurd hp (List.not_mem_nil p)
    · simp only [List.mem_singleton] at hp
      subst hp
      exact ffillCells_map_fst _ _ _

theorem times_dvd {hl dv bn : List (Nat × Rat)} {freq : Nat} {t : Nat}
    (ht : t ∈ (prepareMerged hl dv bn freq).times) : freq ∣ t := by
  by_cases hframes : (venueFrames freq hl dv bn).isEmpty
  · simp [prepareMerged, hframes, emptyFrame] at ht
  · have hsh : (prepareMerged hl dv bn freq).times =
        joinTimes (venueFrames freq hl dv bn) := by
      simp [prepareMerged, hframes]
    rw [hsh] at ht
    obtain ⟨p, hp, c, hc⟩ := mem_joinTimes.1 ht
    obtain ⟨obs, hobs⟩ := venueFrames_series_fst hp
    have htg : t ∈ gridOf freq (sortByTs obs) := by
      rw [← hobs]
      exact List.mem_map.2 ⟨(t, c), hc, rfl⟩
    exact gridOf_dvd htg

theorem binOf_eq_iff {freq : Nat} (hfreq : 0 < freq) {t x : Nat}
    (ht : freq ∣ t) : binOf freq x = t ↔ (t ≤ x ∧ x < t + freq) := by
  obtain ⟨m, rfl⟩ := ht
  unfold binOf
  constructor
  · intro h
    have hdm : x / freq = m := by
      rw [Nat.mul_comm freq m] at h
      exact Nat.eq_of_mul_eq_mul_right hfreq h
    have hmod : freq * m + x % freq = x := by
      conv_rhs => rw [← Nat.div_add_mod x freq, hdm]
    have hlt : x % freq < freq := Nat.mod_lt x hfreq
    omega
  · rintro ⟨h1, h2⟩
    have hdm : x / freq = m := by
      apply Nat.div_eq_of_lt_le
      · rw [Nat.mul_comm]
        exact h1
      · calc x < freq * m + freq := h2
          _ = (m + 1) * freq := by ring
    rw [hdm, Nat.mul_comm]

theorem head_le_getLast {obs : List (Nat × Rat)}
    (h : List.Pairwise obsLE obs) {a b : Nat × Rat}
    (ha : obs.head? = some a) (hb : obs.getLast? = some b) : a.1 ≤ b.1 := by
  cases obs with
  | nil => cases ha
  | cons o os =>
    have ha' : o = a := by simpa using ha
    subst ha'
    rcases List.mem_cons.1 (List.mem_of_getLast?_eq_some hb) with heq | hmem
    · rw [heq]
    · exact (List.pairwise_cons.1 h).1 b hmem

theorem cellAt_hl_none (dv bn : List (Nat × Rat)) (freq : Nat) (t : Nat) :
    cellAt (prepareMerged [] dv bn freq) colHL t = none := by
  by_cases hframes : (venueFrames freq [] dv bn).isEmpty
  · simp [prepareMerged, hframes, cellAt, emptyFrame, List.lookup]
  · have hshape : prepareMerged [] dv bn freq =
        ⟨joinTimes (venueFrames freq [] dv bn),
         mergedCols (venueFrames freq [] dv bn)
           (joinTimes (venueFrames freq [] dv bn))⟩ := by
      simp [prepareMerged, hframes]
    rw [hshape]
    simp only [cellAt]
    rw [mergedCols_lookup freq [] dv bn _ colHL (Or.inl rfl),
      venueFrames_lookup_hl]
    simp

theorem cellAt_dv_none (hl bn : List (Nat × Rat)) (freq : Nat) (t : Nat) :
    cellAt (prepareMerged hl [] bn freq) colDV t = none := by
  by_cases hframes : (venueFrames freq hl [] bn).isEmpty
  · simp [prepareMerged, hframes, cellAt, emptyFrame, List.lookup]
  · have hshape : prepareMerged hl [] bn freq =
        ⟨joinTimes (venueFrames freq hl [] bn),
         mergedCols (venueFrames freq hl [] bn)
           (joinTimes (venueFrames freq hl [] bn))⟩ := by
      simp [prepareMerged, hframes]
    rw [hshape]
    simp only [cellAt]
    rw [mergedCols_lookup freq hl [] bn _ colDV (Or.inr (Or.inl rfl)),
      venueFrames_lookup_dv]
    simp

/-- A present mean cell of a sub-grid venue equals the arithmetic mean
of the raw observations in the half-open window of its bin. -/
theorem mean_cell_eq (venue : List (Nat × Rat)) (freq t : Nat)
    (hfreq : 0 < freq) (hdvd : freq ∣ t) (r : Rat)
    (h1 : ((resampleMean freq venue).lookup t).getD none = some r) :
    (venue.filter fun o => t ≤ o.1 ∧ o.1 < t + freq) ≠ [] ∧
    r = ((venue.filter fun o => t ≤ o.1 ∧ o.1 < t + freq).map Prod.snd).sum /
        ((venue.filter fun o => t ≤ o.1 ∧ o.1 < t + freq).length : Rat) := by
  have hrm : resampleMean freq venue =
      (gridOf freq (sortByTs venue)).map fun u =>
        (u, binMean freq u (sortByTs venue)) := rfl
  rw [hrm, lookup_map_key] at h1
  by_cases htg : t ∈ gridOf freq (sortByTs venue)
  · rw [if_pos htg, Option.getD_some] at h1
    have hfil : ((sortByTs venue).filter fun o => binOf freq o.1 = t) =
        (sortByTs venue).filter fun o => t ≤ o.1 ∧ o.1 < t + freq :=
      List.filter_congr fun o _ => decide_eq_decide.2 (binOf_eq_iff hfreq hdvd)
    rw [binMean, hfil] at h1
    have hperm : ((sortByTs venue).filter fun o => t ≤ o.1 ∧ o.1 < t + freq).Perm
        (venue.filter fun o => t ≤ o.1 ∧ o.1 < t + freq) :=
      (List.perm_insertionSort obsLE venue).filter _
    by_cases hxe : ((sortByTs venue).filter fun o =>
        t ≤ o.1 ∧ o.1 < t + freq).isEmpty
    · rw [if_pos hxe] at h1
      exact Option.noConfusion h1
    · rw [if_neg hxe, Option.some.injEq] at h1
      constructor
      · intro hc
        rw [List.isEmpty_iff] at hxe
        exact hxe (List.Perm.eq_nil (hc ▸ hperm))
      · rw [← h1, (hperm.map Prod.snd).sum_eq, hperm.length_eq]
  · rw [if_neg htg] at h1
    exact Option.noConfusion h1

/-! ### Claim theorems -/

/-- C1 counterexample: with exactly one venue (Hyperliquid) producing
data, `prepare_merged_timeseries` does not return the empty frame (it
returns a one-venue frame), contradicting the claim that fewer than two
non-empty inputs always yield an explicitly empty frame. -/
theorem prepareMerged_single_venue_not_empty :
    prepareMerged [(0, 1/10000)] [] [] 1 ≠ emptyFrame ∧
    (prepareMerged [(0, 1/10000)] [] [] 1).cols.map Prod.fst =
      [colHL, colHL ++ bpsSuffix] := by
  constructor
  · decide
  · decide

/-- C1 (amended): `prepare_merged_timeseries` returns the explicitly
empty frame exactly when no venue at all produced data; with one or more
non-empty inputs the frame is non-empty. -/
theorem prepareMerged_empty_iff (hl dv bn : List (Nat × Rat)) (freq : Nat) :
    prepareMerged hl dv bn freq = emptyFrame ↔ (hl = [] ∧ dv = [] ∧ bn = []) := by
  constructor
  · intro h
    by_contra hc
    push_neg at hc
    have : hl ≠ [] ∨ dv ≠ [] ∨ bn ≠ [] := by tauto
    exact prepareMerged_ne_empty this h
  · rintro ⟨rfl, rfl, rfl⟩
    simp [prepareMerged, venueFrames]

theorem mapM_isSome_eq_filterMap {α β : Type} (f : α → Option β) :
    ∀ l : List α, (∀ a ∈ l, (f a).isSome) → l.mapM f = some (l.filterMap f) := by
  intro l
  induction l with
  | nil => intro _; rfl
  | cons a l ih =>
    intro h
    obtain ⟨b, hb⟩ := Option.isSome_iff_exists.1 (h a (by simp))
    rw [List.mapM_cons, hb, ih fun x hx => h x (by simp [hx])]
    simp [List.filterMap_cons, hb]

theorem dedupByTs_eq_self : ∀ {l : List BinanceRow},
    l.Pairwise (fun a b => a.fundingTime ≠ b.fundingTime) → dedupByTs l = l := by
  intro l
  induction l with
  | nil => intro _; rw [dedupByTs]
  | cons r rs ih =>
    intro h
    rw [dedupByTs]
    have hfil : (rs.filter fun x => x.fundingTime ≠ r.fundingTime) = rs :=
      List.filter_eq_self.2 fun x hx => by
        simp only [ne_eq, decide_eq_true_eq]
        exact fun hc => ((List.pairwise_cons.1 h).1 x hx) hc.symm
    rw [hfil, ih (List.pairwise_cons.1 h).2]

/-- C2: under an upstream honouring the requested window over a history
with unique, increasing funding times, the paginated
`get_funding_rate_history` output is sorted by timestamp, has no
duplicate timestamps, and is the (trivially de-duplicated) concatenation
of the page batches, converted row by row. -/
theorem binance_paginated_output (data : List BinanceRow)
    (hsort : data.Pairwise fun a b => a.fundingTime < b.fundingTime)
    (hparse : ∀ r ∈ data, r.fundingRate.isSome)
    (s e : Nat) (limit : Int) (hse : s ≤ e) (h1 : 1 ≤ limit) (h2 : limit ≤ 1000) :
    ∃ batches,
      binPaginate (honestBinServer data limit (some e)) limit (some e)
        (data.length + 1) (some s) = some batches ∧
      batches.flatten.Pairwise (fun a b => a.fundingTime < b.fundingTime) ∧
      dedupByTs batches.flatten = batches.flatten ∧
      (batches.flatten.map (·.fundingTime)).Nodup ∧
      binanceHistory (honestBinServer data limit (some e)) (some s) (some e)
        limit (data.length + 1) =
        .ok binColumns (batches.flatten.filterMap binParseRow) := by
  have hfuel : (data.filter (inWindow s (some e))).length < data.length + 1 :=
    Nat.lt_succ_of_le (List.length_filter_le _ _)
  obtain ⟨batches, hpag, hflat⟩ :=
    honest_paginate data hsort limit h1 (some e) (data.length + 1) s hfuel
  have hFs : batches.flatten.Pairwise
      (fun a b => a.fundingTime < b.fundingTime) := by
    rw [hflat]
    exact hsort.sublist (List.filter_sublist data)
  have hmem : ∀ r ∈ batches.flatten, r ∈ data := by
    intro r hr
    rw [hflat] at hr
    exact (List.filter_sublist data).mem hr
  refine ⟨batches, hpag, hFs,
    dedupByTs_eq_self (hFs.imp fun hab => Nat.ne_of_lt hab),
    List.pairwise_map.2 (hFs.imp fun hab => Nat.ne_of_lt hab), ?_⟩
  have hnot : ¬ ((limit : Int) < 1 ∨ 1000 < limit) := by omega
  have hrange : binRangeInvalid (some s) (some e) = false := by
    simp only [binRangeInvalid, decide_eq_false_iff_not]
    omega
  simp only [binanceHistory, if_neg hnot, hrange, Bool.false_eq_true, if_false]
  rw [hpag]
  by_cases hemp : batches.flatten.isEmpty
  · rw [List.isEmpty_iff] at hemp
    simp [hemp]
  · have hall : ∀ r ∈ batches.flatten, (binParseRow r).isSome := by
      intro r hr
      obtain ⟨q, hq⟩ := Option.isSome_iff_exists.1 (hparse r (hmem r hr))
      simp [binParseRow, hq]
    simp only [hemp, Bool.false_eq_true, if_false,
      mapM_isSome_eq_filterMap binParseRow _ hall]
    have hrecs : (batches.flatten.filterMap binParseRow).Pairwise binRecLE := by
      refine hFs.filterMap binParseRow ?_
      intro a b hab x hx y hy
      simp only [Option.mem_def, binParseRow, Option.map_eq_some'] at hx hy
      obtain ⟨qa, -, rfl⟩ := hx
      obtain ⟨qb, -, rfl⟩ := hy
      exact le_of_lt hab
    rw [List.Sorted.insertionSort_eq hrecs]

/-- The witness data set: three Binance rows with increasing funding
times and parseable rates. -/
def wData : List BinanceRow :=
  [⟨"S", 1, some 1, none⟩, ⟨"S", 3, some 1, none⟩, ⟨"S", 5, some 1, none⟩]

/-- C2 witness. -/
theorem binance_paginated_output_witness :
    ∃ batches,
      binPaginate (honestBinServer wData 2 (some 9)) 2 (some 9)
        (wData.length + 1) (some 0) = some batches ∧
      batches.flatten.Pairwise (fun a b => a.fundingTime < b.fundingTime) ∧
      dedupByTs batches.flatten = batches.flatten ∧
      (batches.flatten.map (·.fundingTime)).Nodup ∧
      binanceHistory (honestBinServer wData 2 (some 9)) (some 0) (some 9)
        2 (wData.length + 1) =
        .ok binColumns (batches.flatten.filterMap binParseRow) :=
  binance_paginated_output wData (by decide) (by decide) 0 9 2 (by decide)
    (by decide) (by decide)

/-- C3 (amended): the pagination loop exits only on an empty batch, a
batch shorter than `limit`, or an advanced start beyond `end`; with an
upstream honouring the request window these conditions are reached
within `|history| + 1` iterations, for any end bound (also absent). -/
theorem binance_pagination_terminates (data : List BinanceRow)
    (hsort : data.Pairwise fun a b => a.fundingTime < b.fundingTime)
    (limit : Int) (h1 : 1 ≤ limit) :
    ∀ (endMs : Option Nat) (cs : Nat),
      (binPaginate (honestBinServer data limit endMs) limit endMs
        (data.length + 1) (some cs)).isSome := by
  intro endMs cs
  obtain ⟨batches, hpag, -⟩ :=
    honest_paginate data hsort limit h1 endMs (data.length + 1) cs
      (Nat.lt_succ_of_le (List.length_filter_le _ _))
  rw [hpag]
  rfl

/-- C3 witness. -/
theorem binance_pagination_terminates_witness :
    (binPaginate (honestBinServer wData 1 none) 1 none
      (wData.length + 1) (some 0)).isSome :=
  binance_pagination_terminates wData (by decide) 1 (by decide) none 0

/-- A stalled Binance upstream: it ignores the start parameter and
always returns the same full batch of old rows. -/
def stallRows : List BinanceRow :=
  [⟨"BTCUSDT", 0, some 0, none⟩, ⟨"BTCUSDT", 1, some 0, none⟩]

theorem stall_paginate_none : ∀ (fuel : Nat) (cs : Option Nat),
    binPaginate (fun _ => stallRows) 2 none fuel cs = none := by
  intro fuel
  induction fuel with
  | zero => intro cs; rfl
  | succ f ih =>
    intro cs
    have step : binPaginate (fun _ => stallRows) 2 none (f + 1) cs =
        (binPaginate (fun _ => stallRows) 2 none f
          (some (batchMaxTs stallRows + 1))).map (stallRows :: ·) := rfl
    rw [step, ih]
    rfl

/-- C3 counterexample: against a stalled upstream whose advanced start
(2) does not increase past the previous request start (10), the loop
keeps running (here: it is still unfinished after 100 iterations; the
lemma it instantiates shows this for every iteration count), instead of
treating the stall as exhaustion as the claim states. -/
theorem binance_stalled_loop_never_exits :
    binPaginate (fun _ => stallRows) 2 none 100 (some 10) = none :=
  stall_paginate_none 100 (some 10)

/-- C4 counterexample: a single malformed row (unparseable
`fundingRate`) inside an otherwise valid Binance batch makes
`get_funding_rate_history` raise the float conversion `ValueError`,
dropping the well-formed remainder, contrary to the claimed uniform
drop-and-continue policy. -/
theorem binance_malformed_row_raises :
    binanceHistory
      (fun _ => [⟨"BTCUSDT", 10, some (1/10000), none⟩,
                 ⟨"BTCUSDT", 20, none, none⟩])
      (some 0) (some 100) 1000 5 = .valueError floatMsg := by
  rfl

/-- C4 (amended): the malformed-row policy is per-venue, not uniform:
`get_predicted_funding` (Hyperliquid) drops a malformed venue row, or a
malformed asset entry, and preserves every remaining well-formed row,
while the Binance history fetch raises on such a row (see the
counterexample). -/
theorem hl_predicted_drops_malformed (E1 E2 : List HLEntry) (a : String)
    (vs pre post : List HLVenueEntry) (bad : HLVenueEntry)
    (hbad : hlVenueRow a bad = none) :
    hlPredictedRows (E1 ++ ⟨true, a, pre ++ bad :: post⟩ :: E2) =
      hlPredictedRows (E1 ++ ⟨true, a, pre ++ post⟩ :: E2) ∧
    hlPredictedRows (E1 ++ ⟨false, a, vs⟩ :: E2) =
      hlPredictedRows (E1 ++ E2) := by
  constructor
  · simp [hlPredictedRows, List.filterMap_append, List.filterMap_cons, hbad]
  · simp [hlPredictedRows]

/-- C4 witness. -/
theorem hl_predicted_drops_malformed_witness :
    hlVenueRow "BTC" ⟨false, "HlPerp", none, none⟩ = none ∧
    (hlPredictedRows [⟨true, "BTC",
        [⟨true, "HlPerp", some (some 1), some (some 5)⟩,
         ⟨false, "HlPerp", none, none⟩]⟩] =
      hlPredictedRows [⟨true, "BTC",
        [⟨true, "HlPerp", some (some 1), some (some 5)⟩]⟩] ∧
    hlPredictedRows [⟨false, "BTC", []⟩] = hlPredictedRows []) :=
  ⟨rfl, by
    have h := hl_predicted_drops_malformed [] [] "BTC" []
      [⟨true, "HlPerp", some (some 1), some (some 5)⟩] []
      ⟨false, "HlPerp", none, none⟩ rfl
    simpa using h⟩

/-- C7: for venue rates A = 0.0010, B = 0.0003, C = -0.0002 the
spec-modelled Spread and Ranking Engine returns long A, short C,
spread 0.0012 and annualized yield 0.0012 * 3 * 365 * 100 = 131.4
percent. -/
theorem bestPair_scenario :
    bestPair [("A", 1/1000), ("B", 3/10000), ("C", -(1/5000))] =
      some ⟨"A", "C", 3/2500, 657/5⟩ := by
  have hBC : rankRel ("B", (3:Rat)/10000) ("C", -(1/5000)) :=
    Or.inl (by norm_num)
  have hAB : rankRel ("A", (1:Rat)/1000) ("B", 3/10000) :=
    Or.inl (by norm_num)
  simp only [bestPair, List.insertionSort, List.orderedInsert, if_pos hBC,
    if_pos hAB, List.length_cons, List.length_nil, List.head?_cons,
    List.getLast?_cons_cons, List.getLast?_singleton]
  norm_num [settlementsPerDay, BestPair.mk.injEq]

/-- C10: `get_funding_rate_history` raises the limit `ValueError`
exactly for `limit` outside [1, 1000], for every server (hence before
any request is issued); for `limit` inside [1, 1000] the limit
validation never fires. -/
theorem binance_limit_validation (server : Option Nat → List BinanceRow)
    (startMs endMs : Option Nat) (limit : Int) (fuel : Nat) :
    ((limit < 1 ∨ 1000 < limit) →
      binanceHistory server startMs endMs limit fuel = .valueError limitMsg) ∧
    (1 ≤ limit → limit ≤ 1000 →
      binanceHistory server startMs endMs limit fuel ≠ .valueError limitMsg) := by
  constructor
  · intro h
    simp only [binanceHistory, if_pos h]
  · intro h1 h2
    have hnot : ¬ (limit < 1 ∨ 1000 < limit) := by omega
    simp only [binanceHistory, if_neg hnot]
    split
    · intro hc
      have := BinResult.valueError.inj hc
      exact absurd this (by decide)
    · split
      · intro hc
        exact BinResult.noConfusion hc
      · split
        · intro hc
          exact BinResult.noConfusion hc
        · split
          · intro hc
            have := BinResult.valueError.inj hc
            exact absurd this (by decide)
          · intro hc
            exact BinResult.noConfusion hc

/-- C8: for each of the three venue clients, a call with `start > end`
(both bounds supplied, non-negative where the client demands it, and a
valid `limit` for Binance) fails with the range `ValueError` for every
server oracle, hence before any request is issued. -/
theorem clients_invalid_range :
    (∀ (server : Option Nat → List BinanceRow) (s e : Nat) (limit : Int)
        (fuel : Nat), 1 ≤ limit → limit ≤ 1000 → e < s →
        binanceHistory server (some s) (some e) limit fuel = .valueError rangeMsg) ∧
    (∀ (server : Int → Option Int → Option (List HLHistRow)) (coin : String)
        (s e : Int), 0 ≤ s → e < s →
        hlHistory server coin s (some e) = .valueError rangeMsg) ∧
    (∀ (server : Int → Int → Option (List DvRow)) (instrument : String)
        (nowMs : Int) (s e : Int) (pv : Option Int), 0 ≤ s → e < s →
        deriveHistory server instrument nowMs (some s) (some e) pv =
          .valueError dvRangeMsg) := by
  refine ⟨?_, ?_, ?_⟩
  · intro server s e limit fuel h1 h2 hse
    have hnot : ¬ (limit < 1 ∨ 1000 < limit) := by omega
    have hrange : binRangeInvalid (some s) (some e) = true := by
      simp [binRangeInvalid, hse]
    simp only [binanceHistory, if_neg hnot, hrange, if_true]
  · intro server coin s e hs hse
    have h0 : ¬ s < 0 := by omega
    simp only [hlHistory, if_neg h0]
    simp [hse]
  · intro server instrument nowMs s e pv hs hse
    have h0 : ¬ s < 0 := by omega
    simp only [deriveHistory, Option.getD_some]
    rw [if_neg h0, if_pos hse]

/-- C8 witness. -/
theorem clients_invalid_range_witness :
    binanceHistory (fun _ => []) (some 5) (some 2) 1000 3 = .valueError rangeMsg ∧
    hlHistory (fun _ _ => some []) "BTC" 5 (some 2) = .valueError rangeMsg ∧
    deriveHistory (fun _ _ => some []) "BTC-PERP" 9 (some 5) (some 2) none =
      .valueError dvRangeMsg :=
  ⟨clients_invalid_range.1 (fun _ => []) 5 2 1000 3 (by decide) (by decide) (by decide),
   clients_invalid_range.2.1 (fun _ _ => some []) "BTC" 5 2 (by decide) (by decide),
   clients_invalid_range.2.2 (fun _ _ => some []) "BTC-PERP" 9 5 2 none (by decide)
     (by decide)⟩

/-- C9: for each of the three venue clients, a venue response with no
rows in the requested (valid) range yields a dataframe with the full
canonical column set and zero rows, never an error. -/
theorem clients_empty_response_ok :
    (∀ (server : Option Nat → List BinanceRow) (s e : Nat) (limit : Int)
        (fuel : Nat), 1 ≤ limit → limit ≤ 1000 → s ≤ e → 0 < fuel →
        server (some s) = [] →
        binanceHistory server (some s) (some e) limit fuel = .ok binColumns []) ∧
    (∀ (server : Int → Option Int → Option (List HLHistRow)) (coin : String)
        (s e : Int), 0 ≤ s → s ≤ e → server s (some e) = some [] →
        hlHistory server coin s (some e) = .ok hlHistColumns []) ∧
    (∀ (server : Int → Int → Option (List DvRow)) (instrument : String)
        (nowMs : Int) (s e : Int) (pv : Option Int), 0 ≤ s → s ≤ e →
        server s e = some [] →
        deriveHistory server instrument nowMs (some s) (some e) pv =
          .ok dvColumns []) := by
  refine ⟨?_, ?_, ?_⟩
  · intro server s e limit fuel h1 h2 hse hfuel hsrv
    have hnot : ¬ (limit < 1 ∨ 1000 < limit) := by omega
    have hrange : binRangeInvalid (some s) (some e) = false := by
      simp [binRangeInvalid]
      omega
    obtain ⟨f, rfl⟩ : ∃ f, fuel = f + 1 := ⟨fuel - 1, by omega⟩
    simp only [binanceHistory, if_neg hnot, hrange, Bool.false_eq_true, if_false]
    simp [binPaginate, hsrv]
  · intro server coin s e hs hse hsrv
    have h0 : ¬ s < 0 := by omega
    have hlt : ¬ e < s := by omega
    simp only [hlHistory, if_neg h0]
    simp [hlt, hsrv]
  · intro server instrument nowMs s e pv hs hse hsrv
    have h0 : ¬ s < 0 := by omega
    have hlt : ¬ e < s := by omega
    simp only [deriveHistory, Option.getD_some]
    rw [if_neg h0, if_neg hlt, hsrv]

/-- C9 witness. -/
theorem clients_empty_response_ok_witness :
    binanceHistory (fun _ => []) (some 2) (some 5) 1000 3 = .ok binColumns [] ∧
    hlHistory (fun _ _ => some []) "BTC" 2 (some 5) = .ok hlHistColumns [] ∧
    deriveHistory (fun _ _ => some []) "BTC-PERP" 9 (some 2) (some 5) none =
      .ok dvColumns [] :=
  ⟨clients_empty_response_ok.1 (fun _ => []) 2 5 1000 3 (by decide) (by decide)
      (by decide) (by decide) rfl,
   clients_empty_response_ok.2.1 (fun _ _ => some []) "BTC" 2 5 (by decide)
      (by decide) rfl,
   clients_empty_response_ok.2.2 (fun _ _ => some []) "BTC-PERP" 9 2 5 none
      (by decide) (by decide) rfl⟩

/-- C10 witness. -/
theorem binance_limit_validation_witness :
    binanceHistory (fun _ => []) (some 0) (some 9) 0 3 = .valueError limitMsg ∧
    binanceHistory (fun _ => []) (some 0) (some 9) 5 3 ≠ .valueError limitMsg :=
  ⟨(binance_limit_validation (fun _ => []) (some 0) (some 9) 0 3).1 (by decide),
   (binance_limit_validation (fun _ => []) (some 0) (some 9) 5 3).2 (by decide)
     (by decide)⟩

/-- C5 counterexample: with a Binance observation only at hour 0
(rate 5 bps) and Hyperliquid extending the joined grid to hour 2, the
aligned-grid Binance cell at hour 1 is absent even though a most recent
observation at or before hour 1 exists, contradicting the claim that
every aligned-grid cell carries the forward-filled value. -/
theorem binance_join_cell_not_filled :
    cellAt (prepareMerged [(0, 0), (1, 0), (2, 0)] [] [(0, 1/2000)] 1)
      colBN 1 = some none ∧
    lastLE [(0, 1/2000)] 1 = some (1/2000) := ⟨rfl, rfl⟩

/-- C5 (amended): the Binance cell of the aligned grid at `time_k` is
the most recent observation at or before `time_k` whenever `time_k`
lies inside the span of the Binance resampling grid (from the bin of
its first observation to the bin of its last); outside that span — in
particular before the first observation, where the forward fill also
yields no value — the cell is absent. -/
theorem binance_cells_forward_fill (hl dv bn : List (Nat × Rat))
    (freq : Nat) (hfreq : 0 < freq) (hbn : bn ≠ [])
    (hsort : List.Pairwise obsLE bn) :
    ∀ t ∈ (prepareMerged hl dv bn freq).times,
      cellAt (prepareMerged hl dv bn freq) colBN t =
        some (if binOf freq (firstTs bn) ≤ t ∧ t ≤ binOf freq (lastTs bn)
          then lastLE bn t else none) := by
  intro t ht
  rw [cellAt_bn hl dv bn freq hbn t ht]
  have hdvd : freq ∣ t := times_dvd ht
  have hsbn : sortByTs bn = bn := List.Sorted.insertionSort_eq hsort
  have hrf : resampleFfill freq bn =
      (gridOf freq bn).map fun u => (u, lastLE bn u) := by
    unfold resampleFfill
    rw [hsbn]
    exact ffillCells_spec bn hsort _ (gridOf_pairwise freq bn)
  obtain ⟨a, ha⟩ : ∃ a, bn.head? = some a := by
    cases bn with
    | nil => exact absurd rfl hbn
    | cons x xs => exact ⟨x, rfl⟩
  obtain ⟨b, hb⟩ : ∃ b, bn.getLast? = some b := by
    cases hgb : bn.getLast? with
    | none => exact absurd (List.getLast?_eq_none_iff.1 hgb) hbn
    | some b => exact ⟨b, rfl⟩
  have hab : a.1 ≤ b.1 := head_le_getLast hsort ha hb
  have hfirst : firstTs bn = a.1 := by simp [firstTs, ha]
  have hlast : lastTs bn = b.1 := by simp [lastTs, hb]
  rw [hrf, lookup_map_key, hfirst, hlast]
  by_cases hg : t ∈ gridOf freq bn
  · rw [if_pos hg, if_pos ((mem_gridOf hfreq ha hb hab t hdvd).1 hg)]
    rfl
  · rw [if_neg hg, if_neg (fun hc => hg ((mem_gridOf hfreq ha hb hab t hdvd).2 hc))]
    rfl

/-- C5 witness. -/
theorem binance_cells_forward_fill_witness :
    (0 : Nat) < 1 ∧
    ∀ t ∈ (prepareMerged [] [] [(0, 1), (2, 2)] 1).times,
      cellAt (prepareMerged [] [] [(0, 1), (2, 2)] 1) colBN t =
        some (if binOf 1 (firstTs [(0, 1), (2, 2)]) ≤ t ∧
            t ≤ binOf 1 (lastTs [(0, 1), (2, 2)])
          then lastLE [(0, 1), (2, 2)] t else none) :=
  ⟨by decide, binance_cells_forward_fill [] [] [(0, 1), (2, 2)] 1 (by decide)
    (by decide) (by decide)⟩

/-- C6: a present cell of a sub-grid venue column (Hyperliquid or
Derive) of the aligned grid equals the arithmetic mean of the raw
observations with timestamp in the half-open window
`[time_k, time_k + freq)`; a cell covering zero observations is
therefore never present (absent, not zero). -/
theorem subgrid_cells_are_window_means (hl dv bn : List (Nat × Rat))
    (freq : Nat) (hfreq : 0 < freq) :
    ∀ t ∈ (prepareMerged hl dv bn freq).times, ∀ r : Rat,
      (cellAt (prepareMerged hl dv bn freq) colHL t = some (some r) →
        (hl.filter fun o => t ≤ o.1 ∧ o.1 < t + freq) ≠ [] ∧
        r = ((hl.filter fun o => t ≤ o.1 ∧ o.1 < t + freq).map Prod.snd).sum /
            ((hl.filter fun o => t ≤ o.1 ∧ o.1 < t + freq).length : Rat)) ∧
      (cellAt (prepareMerged hl dv bn freq) colDV t = some (some r) →
        (dv.filter fun o => t ≤ o.1 ∧ o.1 < t + freq) ≠ [] ∧
        r = ((dv.filter fun o => t ≤ o.1 ∧ o.1 < t + freq).map Prod.snd).sum /
            ((dv.filter fun o => t ≤ o.1 ∧ o.1 < t + freq).length : Rat)) := by
  intro t ht r
  have hdvd : freq ∣ t := times_dvd ht
  constructor
  · intro hcell
    rcases eq_or_ne hl [] with rfl | hhl
    · rw [cellAt_hl_none dv bn freq t] at hcell
      exact Option.noConfusion hcell
    · rw [cellAt_hl hl dv bn freq hhl t ht] at hcell
      exact mean_cell_eq hl freq t hfreq hdvd r (Option.some.inj hcell)
  · intro hcell
    rcases eq_or_ne dv [] with rfl | hdv
    · rw [cellAt_dv_none hl bn freq t] at hcell
      exact Option.noConfusion hcell
    · rw [cellAt_dv hl dv bn freq hdv t ht] at hcell
      exact mean_cell_eq dv freq t hfreq hdvd r (Option.some.inj hcell)

/-- C6 witness. -/
theorem subgrid_cells_are_window_means_witness :
    (0 : Nat) < 2 ∧
    ∀ t ∈ (prepareMerged [(0, 1), (1, 3)] [] [] 2).times, ∀ r : Rat,
      (cellAt (prepareMerged [(0, 1), (1, 3)] [] [] 2) colHL t =
          some (some r) →
        ([(0, (1 : Rat)), (1, 3)].filter fun o => t ≤ o.1 ∧ o.1 < t + 2) ≠ [] ∧
        r = (([(0, (1 : Rat)), (1, 3)].filter fun o =>
              t ≤ o.1 ∧ o.1 < t + 2).map Prod.snd).sum /
            (([(0, (1 : Rat)), (1, 3)].filter fun o =>
              t ≤ o.1 ∧ o.1 < t + 2).length : Rat)) ∧
      (cellAt (prepareMerged [(0, 1), (1, 3)] [] [] 2) colDV t =
          some (some r) →
        (([] : List (Nat × Rat)).filter fun o => t ≤ o.1 ∧ o.1 < t + 2) ≠ [] ∧
        r = ((([] : List (Nat × Rat)).filter fun o =>
              t ≤ o.1 ∧ o.1 < t + 2).map Prod.snd).sum /
            ((([] : List (Nat × Rat)).filter fun o =>
              t ≤ o.1 ∧ o.1 < t + 2).length : Rat)) :=
  ⟨by decide, subgrid_cells_are_window_means [(0, 1), (1, 3)] [] [] 2 (by decide)⟩

end RevenueModel
